import Mathlib

/-!
Verification of the client-side PDF fallback exporter found in
`client/src/pages/SummaryReviewPage.jsx`.

JavaScript strings are modelled as lists of Unicode scalar values
(`List Char`).  JavaScript's `String.prototype.length` counts UTF-16 code
units, so a separate `utf16Len` measures that quantity; `TextEncoder`
(UTF-8) is modelled by `encodeUtf8`.  Regular-expression replacement in
JavaScript operates on UTF-16 code units, which matters for astral code
points: a single astral character consists of two surrogate units and the
sanitizer's character-class regex therefore replaces it with two `?`
characters.  The embedding reflects that behaviour.
-/

abbrev Str := List Char

/-- Data of a Lean string literal as a character list. -/
def strL (s : String) : Str := s.data

/-- Concatenation of the images of `f` over a list, in order. -/
def flatMapL (f : α → List β) : List α → List β
  | [] => []
  | a :: t => f a ++ flatMapL f t

theorem flatMapL_append (f : α → List β) (l₁ l₂ : List α) :
    flatMapL f (l₁ ++ l₂) = flatMapL f l₁ ++ flatMapL f l₂ := by
  induction l₁ with
  | nil => rfl
  | cons a t ih => simp [flatMapL, ih]

theorem mem_flatMapL {f : α → List β} {b : β} {l : List α} :
    b ∈ flatMapL f l ↔ ∃ a ∈ l, b ∈ f a := by
  induction l with
  | nil => simp [flatMapL]
  | cons a t ih => simp [flatMapL, ih]

/-- Number of UTF-16 code units used by one character. -/
def charUtf16 (c : Char) : Nat := if c.toNat < 0x10000 then 1 else 2

/-- JavaScript `String.prototype.length`: number of UTF-16 code units. -/
def utf16Len (s : Str) : Nat := (s.map charUtf16).sum

theorem utf16Len_nil : utf16Len [] = 0 := rfl

theorem utf16Len_append (a b : Str) :
    utf16Len (a ++ b) = utf16Len a + utf16Len b := by
  simp [utf16Len]

/-- UTF-8 encoding of one Unicode scalar value, as byte values. -/
def utf8Bytes (c : Char) : List Nat :=
  let n := c.toNat
  if n < 0x80 then [n]
  else if n < 0x800 then [0xC0 + n / 0x40, 0x80 + n % 0x40]
  else if n < 0x10000 then
    [0xE0 + n / 0x1000, 0x80 + (n / 0x40) % 0x40, 0x80 + n % 0x40]
  else
    [0xF0 + n / 0x40000, 0x80 + (n / 0x1000) % 0x40,
      0x80 + (n / 0x40) % 0x40, 0x80 + n % 0x40]

/-- `TextEncoder.encode`: UTF-8 bytes of a string. -/
def encodeUtf8 (s : Str) : List Nat := flatMapL utf8Bytes s

theorem encodeUtf8_append (a b : Str) :
    encodeUtf8 (a ++ b) = encodeUtf8 a ++ encodeUtf8 b :=
  flatMapL_append _ _ _

/-- A character that UTF-8 encodes in a single byte ≤ 0x7E. -/
def asciiChar (c : Char) : Prop := c.toNat ≤ 0x7E

instance (c : Char) : Decidable (asciiChar c) := by
  unfold asciiChar; infer_instance

/-- All characters of the string are 7-bit ASCII. -/
def asciiStr (s : Str) : Prop := ∀ c ∈ s, asciiChar c

instance (s : Str) : Decidable (asciiStr s) := by
  unfold asciiStr; infer_instance

theorem asciiStr_append {a b : Str} (ha : asciiStr a) (hb : asciiStr b) :
    asciiStr (a ++ b) := by
  intro c hc
  rcases List.mem_append.mp hc with h | h
  · exact ha c h
  · exact hb c h

theorem asciiStr_of_append_left {a b : Str} (h : asciiStr (a ++ b)) :
    asciiStr a := fun c hc => h c (List.mem_append.mpr (Or.inl hc))

theorem asciiStr_of_append_right {a b : Str} (h : asciiStr (a ++ b)) :
    asciiStr b := fun c hc => h c (List.mem_append.mpr (Or.inr hc))

theorem utf8Bytes_ascii {c : Char} (h : asciiChar c) :
    utf8Bytes c = [c.toNat] := by
  unfold utf8Bytes
  have : c.toNat < 0x80 := Nat.lt_of_le_of_lt h (by norm_num)
  simp [this]

theorem charUtf16_ascii {c : Char} (h : asciiChar c) : charUtf16 c = 1 := by
  unfold charUtf16
  have : c.toNat < 0x10000 := Nat.lt_of_le_of_lt h (by norm_num)
  simp [this]

theorem encodeUtf8_ascii {s : Str} (h : asciiStr s) :
    encodeUtf8 s = s.map Char.toNat := by
  induction s with
  | nil => rfl
  | cons c t ih =>
    have hc : asciiChar c := h c (List.mem_cons_self ..)
    have ht : asciiStr t := fun d hd => h d (List.mem_cons_of_mem _ hd)
    have h1 : encodeUtf8 (c :: t) = utf8Bytes c ++ encodeUtf8 t := rfl
    rw [h1, utf8Bytes_ascii hc, ih ht]
    rfl

theorem utf16Len_ascii {s : Str} (h : asciiStr s) : utf16Len s = s.length := by
  induction s with
  | nil => rfl
  | cons c t ih =>
    have hc : asciiChar c := h c (List.mem_cons_self ..)
    have ht : asciiStr t := fun d hd => h d (List.mem_cons_of_mem _ hd)
    have h1 : utf16Len (c :: t) = charUtf16 c + utf16Len t := rfl
    rw [h1, charUtf16_ascii hc, ih ht, List.length_cons]
    omega

theorem length_encodeUtf8_ascii {s : Str} (h : asciiStr s) :
    (encodeUtf8 s).length = utf16Len s := by
  rw [encodeUtf8_ascii h, utf16Len_ascii h, List.length_map]

/-! ## The Text Sanitizer

Source (`SummaryReviewPage.jsx` line 26):
`const sanitizeAscii = (value = '') => value.replace(/[^\x09\x0A\x0D\x20-\x7E]/g, '?');`

The character class is matched against individual UTF-16 code units, so a
BMP character outside the legal set becomes one `?` while an astral
character (two surrogate units, both outside the class) becomes two. -/

/-- Characters accepted by the sanitizer's character class. -/
def legalPdfChar (c : Char) : Bool :=
  c = '\t' || c = '\n' || c = '\r' || (decide (0x20 ≤ c.toNat) && decide (c.toNat ≤ 0x7E))

def sanitizeAscii (s : Str) : Str :=
  flatMapL
    (fun c =>
      if legalPdfChar c then [c]
      else if c.toNat < 0x10000 then ['?'] else ['?', '?'])
    s

theorem legalPdfChar_ascii {c : Char} (h : legalPdfChar c = true) :
    asciiChar c := by
  unfold legalPdfChar at h
  unfold asciiChar
  rcases Bool.or_eq_true_iff.mp h with h | h3
  · rcases Bool.or_eq_true_iff.mp h with h | h2
    · rcases Bool.or_eq_true_iff.mp h with h1 | h1 <;>
        · simp only [decide_eq_true_eq] at h1
          subst h1; decide
    · simp only [decide_eq_true_eq] at h2
      subst h2; decide
  · have := (Bool.and_eq_true_iff.mp h3).2
    simpa using this

theorem sanitizeAscii_ascii (s : Str) : asciiStr (sanitizeAscii s) := by
  intro c hc
  unfold sanitizeAscii at hc
  rcases mem_flatMapL.mp hc with ⟨a, _, hm⟩
  by_cases h : legalPdfChar a
  · simp [h] at hm
    subst hm
    exact legalPdfChar_ascii h
  · by_cases h2 : a.toNat < 0x10000 <;> simp [h, h2] at hm <;>
      · subst hm; decide

theorem sanitizeAscii_legal (s : Str) :
    ∀ c ∈ sanitizeAscii s, legalPdfChar c = true := by
  intro c hc
  unfold sanitizeAscii at hc
  rcases mem_flatMapL.mp hc with ⟨a, _, hm⟩
  by_cases h : legalPdfChar a
  · simp [h] at hm; subst hm; exact h
  · by_cases h2 : a.toNat < 0x10000 <;> simp [h, h2] at hm <;>
      · subst hm; decide

theorem sanitizeAscii_utf16Len (s : Str) :
    utf16Len (sanitizeAscii s) = utf16Len s := by
  induction s with
  | nil => rfl
  | cons c t ih =>
    have hstep : sanitizeAscii (c :: t)
        = (if legalPdfChar c then [c]
            else if c.toNat < 0x10000 then ['?'] else ['?', '?'])
          ++ sanitizeAscii t := rfl
    have hcons : utf16Len (c :: t) = charUtf16 c + utf16Len t := rfl
    rw [hstep, utf16Len_append, hcons, ih]
    by_cases h : legalPdfChar c
    · have h1 : utf16Len [c] = charUtf16 c := by
        show charUtf16 c + 0 = charUtf16 c
        omega
      simp [h, h1]
    · by_cases h2 : c.toNat < 0x10000
      · have hq : utf16Len ['?'] = 1 := by decide
        have hcu : charUtf16 c = 1 := by unfold charUtf16; simp [h2]
        simp [h, h2, hq, hcu]
      · have hq : utf16Len ['?', '?'] = 2 := by decide
        have hcu : charUtf16 c = 2 := by unfold charUtf16; simp [h2]
        simp [h, h2, hq, hcu]

theorem sanitizeAscii_id {s : Str} (h : ∀ c ∈ s, legalPdfChar c = true) :
    sanitizeAscii s = s := by
  induction s with
  | nil => rfl
  | cons c t ih =>
    have hc : legalPdfChar c = true := h c (List.mem_cons_self ..)
    have ht := ih (fun d hd => h d (List.mem_cons_of_mem _ hd))
    show (if legalPdfChar c then [c]
        else if c.toNat < 0x10000 then ['?'] else ['?', '?']) ++ sanitizeAscii t = c :: t
    simp [hc, ht]

/-! ## The Paragraph Wrapper

Source (`SummaryReviewPage.jsx` lines 120-151): `splitIntoLines` splits the
sanitized text on `/\r?\n/`, trims trailing whitespace from each segment,
and wraps segments longer than the width (all call sites use the default
width, 90).  A long segment is cut at `lastIndexOf(' ', width)` unless that
index is `<= 0`, in which case it is cut exactly at the width; leading
whitespace (`/^\s+/`) is stripped from the continuation. -/

/-- The characters matched by JavaScript `\s` (also those removed by
`String.prototype.trimEnd`). -/
def jsWhitespace : List Char :=
  ['\t', '\n', '\x0b', '\x0c', '\r', ' ',
    Char.ofNat 0xA0, Char.ofNat 0x1680,
    Char.ofNat 0x2000, Char.ofNat 0x2001, Char.ofNat 0x2002, Char.ofNat 0x2003,
    Char.ofNat 0x2004, Char.ofNat 0x2005, Char.ofNat 0x2006, Char.ofNat 0x2007,
    Char.ofNat 0x2008, Char.ofNat 0x2009, Char.ofNat 0x200A,
    Char.ofNat 0x2028, Char.ofNat 0x2029, Char.ofNat 0x202F,
    Char.ofNat 0x205F, Char.ofNat 0x3000, Char.ofNat 0xFEFF]

def isJsWs (c : Char) : Bool := jsWhitespace.contains c

/-- `String.prototype.trimEnd`. -/
def trimEnd (s : Str) : Str := (s.reverse.dropWhile isJsWs).reverse

/-- Prepend a character to the first segment of a segment list (used by the
`split(/\r?\n/)` model for ordinary characters). -/
def consHead (c : Char) : List Str → List Str
  | [] => [[c]]
  | s :: ss => (c :: s) :: ss

/-- JavaScript `split(/\r?\n/)`: CRLF and lone LF separate segments; a lone
CR is an ordinary character. -/
def splitOnNl : Str → List Str
  | [] => [[]]
  | [c] => if c = '\n' then [[], []] else [[c]]
  | c :: c2 :: rest =>
    if c = '\n' then [] :: splitOnNl (c2 :: rest)
    else if c = '\r' ∧ c2 = '\n' then [] :: splitOnNl rest
    else consHead c (splitOnNl (c2 :: rest))

/-- JavaScript `s.lastIndexOf(' ', bound)`: the largest index `i ≤ bound`
holding a space, if any (`none` plays the role of `-1`). -/
def lastSpaceLE (s : Str) (bound : Nat) : Option Nat :=
  ((List.range (bound + 1)).filter (fun i => decide (s.getD i 'x' = ' '))).getLast?

/-- The cut position chosen by the wrapper's loop body: the result of
`lastIndexOf(' ', 90)` unless it is `<= 0` (i.e. `-1` or `0`), in which case
the width itself. -/
def splitIdx (s : Str) : Nat :=
  match lastSpaceLE s 90 with
  | some (j + 1) => j + 1
  | _ => 90

/-- Fuel-indexed body of the wrapper's `while (remaining.length > width)`
loop (the fuel is only a termination device; `wrapLoop` supplies enough for
the loop to run to completion, since every iteration shortens the
remainder). -/
def wrapLoopF : Nat → Str → List Str
  | 0, s =>
    if 90 < s.length then [] else if s.length = 0 then [] else [s]
  | f + 1, s =>
    if 90 < s.length then
      trimEnd (s.take (splitIdx s))
        :: wrapLoopF f ((s.drop (splitIdx s)).dropWhile isJsWs)
    else if s.length = 0 then [] else [s]

def wrapLoop (s : Str) : List Str := wrapLoopF s.length s

/-- Lines contributed by one segment: a blank line if the trimmed segment is
empty, otherwise the wrap loop's output. -/
def segLines (seg : Str) : List Str :=
  if trimEnd seg = [] then [[]] else wrapLoop (trimEnd seg)

def splitIntoLines (text : Str) : List Str :=
  if text = [] then [[]]
  else
    let lines := flatMapL segLines (splitOnNl (sanitizeAscii text))
    if lines = [] then [[]] else lines

def wrapParagraphs (text : Str) : List Str := splitIntoLines text

theorem splitIdx_pos (s : Str) : 1 ≤ splitIdx s := by
  unfold splitIdx
  rcases h : lastSpaceLE s 90 with _ | j
  · simp
  · cases j <;> simp

theorem mem_of_getLast?_eq {l : List α} {a : α} (h : l.getLast? = some a) :
    a ∈ l := by
  rcases List.mem_getLast?_eq_getLast (by rw [Option.mem_def]; exact h)
    with ⟨hne, heq⟩
  rw [heq]
  exact List.getLast_mem hne

theorem splitIdx_le (s : Str) : splitIdx s ≤ 90 := by
  unfold splitIdx
  rcases h : lastSpaceLE s 90 with _ | j
  · simp
  · cases j with
    | zero => simp
    | succ k =>
      simp only
      unfold lastSpaceLE at h
      have hmem := mem_of_getLast?_eq h
      have h1 := (List.mem_filter.mp hmem).1
      have := List.mem_range.mp h1
      omega

theorem trimEnd_length_le (s : Str) : (trimEnd s).length ≤ s.length := by
  unfold trimEnd
  have h := (List.dropWhile_sublist (l := s.reverse) (p := isJsWs)).length_le
  simpa using h

theorem wrapRestShorter (s : Str) (h : 90 < s.length) :
    ((s.drop (splitIdx s)).dropWhile isJsWs).length < s.length := by
  have hdw := (List.dropWhile_sublist
    (l := s.drop (splitIdx s)) (p := isJsWs)).length_le
  have hdrop : (s.drop (splitIdx s)).length = s.length - splitIdx s := by simp
  have hpos := splitIdx_pos s
  omega

theorem wrapLoopF_fuelFree (f₁ f₂ : Nat) :
    ∀ s : Str, s.length ≤ f₁ → s.length ≤ f₂ →
      wrapLoopF f₁ s = wrapLoopF f₂ s := by
  induction f₁ using Nat.strong_induction_on generalizing f₂ with
  | _ f₁ ih =>
    intro s h1 h2
    by_cases hlen : 90 < s.length
    · match f₁, f₂ with
      | 0, _ => omega
      | _ + 1, 0 => omega
      | a + 1, b + 1 =>
        show wrapLoopF (a + 1) s = wrapLoopF (b + 1) s
        rw [wrapLoopF, wrapLoopF]
        simp only [hlen, if_true]
        congr 1
        have hrest := wrapRestShorter s hlen
        exact ih a (by omega) b _ (by omega) (by omega)
    · match f₁, f₂ with
      | 0, 0 => rfl
      | 0, b + 1 => rw [wrapLoopF, wrapLoopF]; simp [hlen]
      | a + 1, 0 => rw [wrapLoopF, wrapLoopF]; simp [hlen]
      | a + 1, b + 1 => rw [wrapLoopF, wrapLoopF]; simp [hlen]

theorem wrapLoop_eq_gt {s : Str} (h : 90 < s.length) :
    wrapLoop s = trimEnd (s.take (splitIdx s))
      :: wrapLoop ((s.drop (splitIdx s)).dropWhile isJsWs) := by
  have hrest := wrapRestShorter s h
  have h1 : wrapLoop s = wrapLoopF ((s.length - 1) + 1) s := by
    show wrapLoopF s.length s = _
    refine wrapLoopF_fuelFree _ _ s ?_ ?_ <;> omega
  rw [h1, wrapLoopF]
  simp only [h, if_true]
  congr 1
  show wrapLoopF (s.length - 1) _ = wrapLoopF (List.length _) _
  refine wrapLoopF_fuelFree _ _ _ ?_ ?_ <;> omega

theorem wrapLoop_eq_le {s : Str} (h : ¬ 90 < s.length) :
    wrapLoop s = if s.length = 0 then [] else [s] := by
  show wrapLoopF s.length s = _
  rcases hn : s.length with _ | n
  · rw [wrapLoopF]; simp [hn] at h ⊢
  · rw [wrapLoopF]; rw [hn] at h; simp [h, hn]

theorem wrapLoopF_line_le (fuel : Nat) :
    ∀ {s : Str} {l : Str}, l ∈ wrapLoopF fuel s → l.length ≤ 90 := by
  induction fuel with
  | zero =>
    intro s l hl
    rw [wrapLoopF] at hl
    by_cases h : 90 < s.length
    · simp [h] at hl
    · by_cases h0 : s.length = 0 <;> simp [h, h0] at hl
      subst hl; omega
  | succ f ih =>
    intro s l hl
    rw [wrapLoopF] at hl
    by_cases h : 90 < s.length
    · simp only [h, if_true] at hl
      rcases List.mem_cons.mp hl with hh | ht
      · subst hh
        calc (trimEnd (s.take (splitIdx s))).length
            ≤ (s.take (splitIdx s)).length := trimEnd_length_le _
          _ ≤ splitIdx s := by simp
          _ ≤ 90 := splitIdx_le s
      · exact ih ht
    · by_cases h0 : s.length = 0 <;> simp [h, h0] at hl
      subst hl; omega

theorem wrapLoop_line_le {s l : Str} (hl : l ∈ wrapLoop s) : l.length ≤ 90 :=
  wrapLoopF_line_le s.length hl

/-! ## PDF string escaping and the Content Stream Builder

Source (`SummaryReviewPage.jsx` lines 93-98 and 178-191).  `escapePdfText`
applies four `replace` passes in order: double every backslash, escape `(`,
escape `)`, and turn `\r?\n` into the literal two characters `\` `n`.
`buildContentStream` emits `BT`, a font selector, one text-matrix plus
show-text command per line (y starts at 760, shrinks by 14 per line, and is
reset to 760 when it drops below 60), and `ET`, joined by newlines with a
trailing newline. -/

def replaceBackslash (s : Str) : Str :=
  flatMapL (fun c => if c = '\\' then ['\\', '\\'] else [c]) s

def replaceOpenParen (s : Str) : Str :=
  flatMapL (fun c => if c = '(' then ['\\', '('] else [c]) s

def replaceCloseParen (s : Str) : Str :=
  flatMapL (fun c => if c = ')' then ['\\', ')'] else [c]) s

/-- The `/\r?\n/g → "\\n"` pass: LF, or CR immediately followed by LF,
becomes backslash-n; a lone CR is left alone. -/
def replaceNewline : Str → Str
  | [] => []
  | [c] => if c = '\n' then ['\\', 'n'] else [c]
  | c :: c2 :: rest =>
    if c = '\n' then '\\' :: 'n' :: replaceNewline (c2 :: rest)
    else if c = '\r' ∧ c2 = '\n' then '\\' :: 'n' :: replaceNewline rest
    else c :: replaceNewline (c2 :: rest)

def escapePdfText (v : Str) : Str :=
  if v = [] then []
  else replaceNewline (replaceCloseParen (replaceOpenParen (replaceBackslash v)))

/-- Combined effect of the three reserved-character passes on a single
character (specification-side description). -/
def escChar (c : Char) : Str :=
  if c = '\\' then ['\\', '\\']
  else if c = '(' then ['\\', '(']
  else if c = ')' then ['\\', ')']
  else [c]

theorem three_passes_eq_flatMap (s : Str) :
    replaceCloseParen (replaceOpenParen (replaceBackslash s))
      = flatMapL escChar s := by
  induction s with
  | nil => rfl
  | cons c t ih =>
    have hsplit : replaceCloseParen (replaceOpenParen (replaceBackslash (c :: t)))
        = replaceCloseParen (replaceOpenParen
            (if c = '\\' then ['\\', '\\'] else [c]))
          ++ replaceCloseParen (replaceOpenParen (replaceBackslash t)) := by
      show replaceCloseParen (replaceOpenParen
          ((if c = '\\' then ['\\', '\\'] else [c]) ++ replaceBackslash t)) = _
      rw [show replaceOpenParen
            ((if c = '\\' then ['\\', '\\'] else [c]) ++ replaceBackslash t)
          = replaceOpenParen (if c = '\\' then ['\\', '\\'] else [c])
            ++ replaceOpenParen (replaceBackslash t) from flatMapL_append ..]
      exact flatMapL_append ..
    have hhead : replaceCloseParen (replaceOpenParen
        (if c = '\\' then ['\\', '\\'] else [c])) = escChar c := by
      by_cases h1 : c = '\\'
      · subst h1; decide
      · by_cases h2 : c = '('
        · subst h2; decide
        · by_cases h3 : c = ')'
          · subst h3; decide
          · simp [h1, h2, h3, replaceOpenParen, replaceCloseParen, flatMapL,
              escChar]
    rw [hsplit, hhead, ih]
    rfl

theorem mem_escChar {d c : Char} (h : d ∈ escChar c) :
    d = c ∨ d = '\\' ∨ d = '(' ∨ d = ')' := by
  unfold escChar at h
  by_cases h1 : c = '\\' <;> by_cases h2 : c = '(' <;> by_cases h3 : c = ')' <;>
    simp [h1, h2, h3] at h <;> tauto

theorem replaceNewline_no_lf_aux (n : Nat) :
    ∀ s : Str, s.length ≤ n → '\n' ∉ s → replaceNewline s = s := by
  induction n with
  | zero =>
    intro s hl _
    match s, hl with
    | [], _ => rfl
  | succ m ih =>
    intro s hl h
    match s with
    | [] => rfl
    | [c] =>
      have hc : c ≠ '\n' := by
        intro hh; subst hh; exact h (List.mem_cons_self ..)
      simp [replaceNewline, hc]
    | c :: c2 :: rest =>
      have hc : c ≠ '\n' := by
        intro hh; subst hh; exact h (List.mem_cons_self ..)
      have hc2 : c2 ≠ '\n' := by
        intro hh; subst hh
        exact h (List.mem_cons_of_mem _ (List.mem_cons_self ..))
      have ht : '\n' ∉ c2 :: rest := by
        intro hh; exact h (List.mem_cons_of_mem _ hh)
      have hlen : (c2 :: rest).length ≤ m := by
        simp at hl ⊢; omega
      rw [replaceNewline, if_neg hc, if_neg (fun hand => hc2 hand.2),
        ih (c2 :: rest) hlen ht]

theorem replaceNewline_no_lf {s : Str} (h : '\n' ∉ s) :
    replaceNewline s = s :=
  replaceNewline_no_lf_aux s.length s le_rfl h

theorem escapePdfText_no_lf {s : Str} (h : '\n' ∉ s) :
    escapePdfText s = flatMapL escChar s := by
  unfold escapePdfText
  by_cases he : s = []
  · subst he; rfl
  · simp only [he, if_false]
    rw [three_passes_eq_flatMap]
    apply replaceNewline_no_lf
    intro hmem
    rcases mem_flatMapL.mp hmem with ⟨a, ha, hin⟩
    rcases mem_escChar hin with h1 | h1 | h1 | h1
    · exact h (h1 ▸ ha)
    all_goals simp at h1

/-- ASCII digit for a value below ten. -/
def digitChar (d : Nat) : Char := Char.ofNat (48 + d)

/-- Accumulator loop for decimal printing; the fuel (first argument) only
bounds the number of division steps and `natToDec` always supplies enough
of it, since a positive number has no more decimal digits than its value. -/
def natToDecAux : Nat → Nat → Str → Str
  | 0, _, acc => acc
  | fuel + 1, n, acc =>
    if n = 0 then acc else natToDecAux fuel (n / 10) (digitChar (n % 10) :: acc)

/-- JavaScript number-to-string for a nonnegative integer (template-literal
interpolation `${n}`): standard decimal notation. -/
def natToDec (n : Nat) : Str :=
  if n = 0 then strL "0" else natToDecAux n n []

theorem digitChar_ascii {d : Nat} (h : d < 10) : asciiChar (digitChar d) := by
  have : ∀ e, e < 10 → asciiChar (digitChar e) := by decide
  exact this d h

theorem natToDecAux_ascii (fuel : Nat) :
    ∀ n acc, asciiStr acc → asciiStr (natToDecAux fuel n acc) := by
  induction fuel with
  | zero => intro n acc hacc; exact hacc
  | succ f ih =>
    intro n acc hacc
    rw [natToDecAux]
    by_cases hn : n = 0
    · simp [hn, hacc]
    · simp only [hn, if_false]
      apply ih
      intro c hc
      rcases List.mem_cons.mp hc with hh | hh
      · subst hh; exact digitChar_ascii (Nat.mod_lt _ (by omega))
      · exact hacc c hh

theorem natToDec_ascii (n : Nat) : asciiStr (natToDec n) := by
  unfold natToDec
  by_cases hn : n = 0
  · simp only [hn, if_true]; decide
  · simp only [hn, if_false]
    exact natToDecAux_ascii n n [] (by intro c hc; simp at hc)

/-- `Array.prototype.join('\n')`. -/
def joinNl : List Str → Str
  | [] => []
  | [x] => x
  | x :: y :: t => x ++ '\n' :: joinNl (y :: t)

/-- One `Tm`-positioning plus `Tj`-show-text command for one line. -/
def texCmd (y : Nat) (line : Str) : Str :=
  strL "1 0 0 1 50 " ++ natToDec y ++ strL " Tm ("
    ++ escapePdfText line ++ strL ") Tj"

/-- The cursor update `y -= 14; if (y < 60) y = 760;`. -/
def nextY (y : Nat) : Nat := if y - 14 < 60 then 760 else y - 14

def buildCmds : Nat → List Str → List Str
  | _, [] => []
  | y, l :: rest => texCmd y l :: buildCmds (nextY y) rest

def buildContentStream (lines : List Str) : Str :=
  joinNl ([strL "BT", strL "/F1 12 Tf"] ++ buildCmds 760 lines ++ [strL "ET"])
    ++ ['\n']

/-- The vertical coordinate of the i-th emitted line: starts at 760,
decreases by 14 per line, resets to 760 when it would fall below 60. -/
def ySpec : Nat → Nat
  | 0 => 760
  | n + 1 => if ySpec n - 14 < 60 then 760 else ySpec n - 14

/-- Pairs each list element with its index, starting at `k`. -/
def enumFromL (k : Nat) : List α → List (Nat × α)
  | [] => []
  | a :: t => (k, a) :: enumFromL (k + 1) t

theorem joinNl_cons_of_ne_nil (x : Str) {l : List Str} (h : l ≠ []) :
    joinNl (x :: l) = x ++ '\n' :: joinNl l := by
  cases l with
  | nil => exact absurd rfl h
  | cons y t => rfl

theorem joinNl_et (cmds : List Str) :
    ∃ b, joinNl (cmds ++ [strL "ET"]) ++ ['\n'] = b ++ strL "ET\n" := by
  induction cmds with
  | nil => exact ⟨[], by decide⟩
  | cons c cs ih =>
    obtain ⟨b, hb⟩ := ih
    have hne : cs ++ [strL "ET"] ≠ [] := by simp
    refine ⟨c ++ '\n' :: b, ?_⟩
    rw [show (c :: cs) ++ [strL "ET"] = c :: (cs ++ [strL "ET"]) from by simp,
      joinNl_cons_of_ne_nil _ hne]
    calc (c ++ '\n' :: joinNl (cs ++ [strL "ET"])) ++ ['\n']
        = c ++ '\n' :: (joinNl (cs ++ [strL "ET"]) ++ ['\n']) := by simp
      _ = c ++ '\n' :: (b ++ strL "ET\n") := by rw [hb]
      _ = (c ++ '\n' :: b) ++ strL "ET\n" := by simp

theorem buildContentStream_shape (lines : List Str) :
    ∃ body, buildContentStream lines
      = strL "BT\n/F1 12 Tf\n" ++ body ++ strL "ET\n" := by
  obtain ⟨b, hb⟩ := joinNl_et (buildCmds 760 lines)
  have h1 : buildCmds 760 lines ++ [strL "ET"] ≠ [] := by simp
  have h2 : strL "/F1 12 Tf" :: (buildCmds 760 lines ++ [strL "ET"]) ≠ [] := by
    simp
  refine ⟨b, ?_⟩
  unfold buildContentStream
  rw [show [strL "BT", strL "/F1 12 Tf"] ++ buildCmds 760 lines ++ [strL "ET"]
      = strL "BT" :: strL "/F1 12 Tf" :: (buildCmds 760 lines ++ [strL "ET"])
    from by simp]
  rw [joinNl_cons_of_ne_nil _ h2, joinNl_cons_of_ne_nil _ h1]
  have hlit : strL "BT\n/F1 12 Tf\n"
      = strL "BT" ++ '\n' :: (strL "/F1 12 Tf" ++ ['\n']) := by decide
  rw [hlit]
  simp only [List.append_assoc, List.cons_append, List.singleton_append,
    List.nil_append]
  rw [hb]

theorem nextY_ySpec (k : Nat) : nextY (ySpec k) = ySpec (k + 1) := rfl

theorem buildCmds_enum (lines : List Str) :
    ∀ k, buildCmds (ySpec k) lines
      = (enumFromL k lines).map (fun p => texCmd (ySpec p.1) p.2) := by
  induction lines with
  | nil => intro k; rfl
  | cons l t ih =>
    intro k
    rw [buildCmds, enumFromL, List.map_cons]
    congr 1
    rw [nextY_ySpec]
    exact ih (k + 1)

theorem mem_replaceBackslash {c : Char} {s : Str}
    (h : c ∈ replaceBackslash s) : c ∈ s ∨ c = '\\' := by
  unfold replaceBackslash at h
  rcases mem_flatMapL.mp h with ⟨a, ha, hm⟩
  by_cases hb : a = '\\' <;> simp [hb] at hm
  · right; exact hm
  · left; exact hm ▸ ha

theorem mem_replaceOpenParen {c : Char} {s : Str}
    (h : c ∈ replaceOpenParen s) : c ∈ s ∨ c = '\\' ∨ c = '(' := by
  unfold replaceOpenParen at h
  rcases mem_flatMapL.mp h with ⟨a, ha, hm⟩
  by_cases hb : a = '(' <;> simp [hb] at hm
  · tauto
  · left; exact hm ▸ ha

theorem mem_replaceCloseParen {c : Char} {s : Str}
    (h : c ∈ replaceCloseParen s) : c ∈ s ∨ c = '\\' ∨ c = ')' := by
  unfold replaceCloseParen at h
  rcases mem_flatMapL.mp h with ⟨a, ha, hm⟩
  by_cases hb : a = ')' <;> simp [hb] at hm
  · tauto
  · left; exact hm ▸ ha

theorem replaceNewline_ascii_aux (n : Nat) :
    ∀ s : Str, s.length ≤ n → asciiStr s → asciiStr (replaceNewline s) := by
  induction n with
  | zero =>
    intro s hl _
    match s, hl with
    | [], _ => intro c hc; simp [replaceNewline] at hc
  | succ m ih =>
    intro s hl h
    match s with
    | [] => intro c hc; simp [replaceNewline] at hc
    | [c] =>
      rw [replaceNewline]
      by_cases hc : c = '\n'
      · simp only [hc, if_true]; decide
      · simp only [hc, if_false]
        intro d hd
        simp at hd
        exact hd ▸ h c (List.mem_cons_self ..)
    | c :: c2 :: rest =>
      have hasc : asciiChar c := h c (List.mem_cons_self ..)
      have ht : asciiStr (c2 :: rest) := fun d hd =>
        h d (List.mem_cons_of_mem _ hd)
      have hrest : asciiStr rest := fun d hd =>
        ht d (List.mem_cons_of_mem _ hd)
      have hl2 : (c2 :: rest).length ≤ m := by simp at hl ⊢; omega
      have hl3 : rest.length ≤ m := by simp at hl ⊢; omega
      rw [replaceNewline]
      by_cases hc : c = '\n'
      · simp only [hc, if_true]
        intro d hd
        rcases List.mem_cons.mp hd with rfl | hd
        · decide
        · rcases List.mem_cons.mp hd with rfl | hd
          · decide
          · exact ih (c2 :: rest) hl2 ht d hd
      · simp only [hc, if_false]
        by_cases hcr : c = '\r' ∧ c2 = '\n'
        · simp only [hcr, if_true]
          intro d hd
          rcases List.mem_cons.mp hd with rfl | hd
          · decide
          · rcases List.mem_cons.mp hd with rfl | hd
            · decide
            · exact ih rest hl3 hrest d hd
        · simp only [hcr, if_false]
          intro d hd
          rcases List.mem_cons.mp hd with rfl | hd
          · exact hasc
          · exact ih (c2 :: rest) hl2 ht d hd

theorem escapePdfText_ascii {s : Str} (h : asciiStr s) :
    asciiStr (escapePdfText s) := by
  unfold escapePdfText
  by_cases he : s = []
  · simp [he]
    intro c hc
    simp at hc
  · simp only [he, if_false]
    apply replaceNewline_ascii_aux _ _ le_rfl
    intro c hc
    rcases mem_replaceCloseParen hc with h1 | h1 | h1
    · rcases mem_replaceOpenParen h1 with h2 | h2 | h2
      · rcases mem_replaceBackslash h2 with h3 | h3
        · exact h c h3
        · subst h3; decide
      · subst h2; decide
      · subst h2; decide
    · subst h1; decide
    · subst h1; decide

theorem texCmd_ascii {y : Nat} {l : Str} (h : asciiStr l) :
    asciiStr (texCmd y l) := by
  unfold texCmd
  refine asciiStr_append (asciiStr_append (asciiStr_append
    (asciiStr_append ?_ (natToDec_ascii y)) ?_) (escapePdfText_ascii h)) ?_
  · decide
  · decide
  · decide

theorem buildCmds_ascii {lines : List Str} (h : ∀ l ∈ lines, asciiStr l) :
    ∀ y, ∀ cmd ∈ buildCmds y lines, asciiStr cmd := by
  induction lines with
  | nil => intro y cmd hc; simp [buildCmds] at hc
  | cons l t ih =>
    intro y cmd hc
    rw [buildCmds] at hc
    rcases List.mem_cons.mp hc with rfl | hc
    · exact texCmd_ascii (h l (List.mem_cons_self ..))
    · exact ih (fun x hx => h x (List.mem_cons_of_mem _ hx)) (nextY y) cmd hc

theorem joinNl_ascii {L : List Str} (h : ∀ l ∈ L, asciiStr l) :
    asciiStr (joinNl L) := by
  induction L with
  | nil => intro c hc; simp [joinNl] at hc
  | cons x t ih =>
    cases t with
    | nil =>
      show asciiStr x
      exact h x (List.mem_cons_self ..)
    | cons y t2 =>
      show asciiStr (x ++ '\n' :: joinNl (y :: t2))
      refine asciiStr_append (h x (List.mem_cons_self ..)) ?_
      intro c hc
      rcases List.mem_cons.mp hc with rfl | hc
      · decide
      · exact ih (fun l hl => h l (List.mem_cons_of_mem _ hl)) c hc

theorem buildContentStream_ascii {lines : List Str}
    (h : ∀ l ∈ lines, asciiStr l) : asciiStr (buildContentStream lines) := by
  unfold buildContentStream
  refine asciiStr_append (joinNl_ascii ?_) (by decide)
  intro l hl
  rcases List.mem_append.mp hl with hl | hl
  · rcases List.mem_append.mp hl with hl | hl
    · rcases List.mem_cons.mp hl with rfl | hl
      · decide
      · rcases List.mem_cons.mp hl with rfl | hl
        · decide
        · simp at hl
    · exact buildCmds_ascii h 760 l hl
  · rcases List.mem_cons.mp hl with rfl | hl
    · decide
    · simp at hl

theorem mem_trimEnd {c : Char} {s : Str} (h : c ∈ trimEnd s) : c ∈ s := by
  unfold trimEnd at h
  rw [List.mem_reverse] at h
  have := (List.dropWhile_sublist (l := s.reverse) (p := isJsWs)).mem h
  rwa [List.mem_reverse] at this

theorem mem_consHead {c : Char} {L : List Str} {seg : Str}
    (h : seg ∈ consHead c L) :
    (L = [] ∧ seg = [c])
      ∨ ∃ s0 ss, L = s0 :: ss ∧ (seg = c :: s0 ∨ seg ∈ ss) := by
  cases L with
  | nil =>
    left
    refine ⟨rfl, ?_⟩
    simpa [consHead] using h
  | cons s0 ss =>
    right
    refine ⟨s0, ss, rfl, ?_⟩
    simpa [consHead] using List.mem_cons.mp h

theorem splitOnNl_chars_aux (n : Nat) :
    ∀ s : Str, s.length ≤ n →
      ∀ seg ∈ splitOnNl s, ∀ c ∈ seg, c ∈ s := by
  induction n with
  | zero =>
    intro s hl
    match s, hl with
    | [], _ =>
      intro seg hseg c hc
      simp [splitOnNl] at hseg
      subst hseg
      simp at hc
  | succ m ih =>
    intro s hl
    match s with
    | [] =>
      intro seg hseg c hc
      simp [splitOnNl] at hseg
      subst hseg
      simp at hc
    | [a] =>
      intro seg hseg c hc
      rw [splitOnNl] at hseg
      by_cases ha : a = '\n'
      · simp [ha] at hseg
        subst hseg
        simp at hc
      · simp [ha] at hseg
        subst hseg
        simp at hc
        simp [hc]
    | a :: a2 :: rest =>
      intro seg hseg c hc
      have hl2 : (a2 :: rest).length ≤ m := by simp at hl ⊢; omega
      have hl3 : rest.length ≤ m := by simp at hl ⊢; omega
      rw [splitOnNl] at hseg
      by_cases ha : a = '\n'
      · simp only [ha, if_true] at hseg
        rcases List.mem_cons.mp hseg with rfl | hseg
        · simp at hc
        · exact List.mem_cons_of_mem _ (ih (a2 :: rest) hl2 seg hseg c hc)
      · simp only [ha, if_false] at hseg
        by_cases hcr : a = '\r' ∧ a2 = '\n'
        · simp only [hcr, if_true] at hseg
          rcases List.mem_cons.mp hseg with rfl | hseg
          · simp at hc
          · have := ih rest hl3 seg hseg c hc
            exact List.mem_cons_of_mem _ (List.mem_cons_of_mem _ this)
        · simp only [hcr, if_false] at hseg
          rcases mem_consHead hseg with ⟨_, rfl⟩ | ⟨s0, ss, heq, hcase⟩
          · simp at hc
            simp [hc]
          · rcases hcase with rfl | hseg2
            · rcases List.mem_cons.mp hc with rfl | hc2
              · exact List.mem_cons_self ..
              · have : c ∈ a2 :: rest := by
                  apply ih (a2 :: rest) hl2 s0
                  · rw [heq]; exact List.mem_cons_self ..
                  · exact hc2
                exact List.mem_cons_of_mem _ this
            · have : c ∈ a2 :: rest := by
                apply ih (a2 :: rest) hl2 seg
                · rw [heq]; exact List.mem_cons_of_mem _ hseg2
                · exact hc
              exact List.mem_cons_of_mem _ this

theorem splitOnNl_chars {s : Str} {seg : Str} (hseg : seg ∈ splitOnNl s)
    {c : Char} (hc : c ∈ seg) : c ∈ s :=
  splitOnNl_chars_aux s.length s le_rfl seg hseg c hc

theorem wrapLoopF_chars (fuel : Nat) :
    ∀ {s l : Str}, l ∈ wrapLoopF fuel s → ∀ c ∈ l, c ∈ s := by
  induction fuel with
  | zero =>
    intro s l hl c hc
    rw [wrapLoopF] at hl
    by_cases h : 90 < s.length
    · simp [h] at hl
    · by_cases h0 : s.length = 0 <;> simp [h, h0] at hl
      subst hl; exact hc
  | succ f ih =>
    intro s l hl c hc
    rw [wrapLoopF] at hl
    by_cases h : 90 < s.length
    · simp only [h, if_true] at hl
      rcases List.mem_cons.mp hl with rfl | ht
      · have h1 := mem_trimEnd hc
        exact (List.take_sublist ..).mem h1
      · have h1 := ih ht c hc
        have h2 := (List.dropWhile_sublist
          (l := s.drop (splitIdx s)) (p := isJsWs)).mem h1
        exact (List.drop_sublist ..).mem h2
    · by_cases h0 : s.length = 0 <;> simp [h, h0] at hl
      subst hl; exact hc

theorem wrapLoop_chars {s l : Str} (hl : l ∈ wrapLoop s) :
    ∀ c ∈ l, c ∈ s :=
  wrapLoopF_chars s.length hl

theorem segLines_ascii {seg : Str} (hseg : asciiStr seg) :
    ∀ l ∈ segLines seg, asciiStr l := by
  intro l hl
  unfold segLines at hl
  by_cases h : trimEnd seg = []
  · simp [h] at hl
    subst hl
    intro c hc
    simp at hc
  · simp only [h, if_false] at hl
    intro c hc
    exact hseg c (mem_trimEnd (wrapLoop_chars hl c hc))

theorem segLines_le90 (seg : Str) : ∀ l ∈ segLines seg, l.length ≤ 90 := by
  intro l hl
  unfold segLines at hl
  by_cases h : trimEnd seg = []
  · simp [h] at hl
    subst hl
    simp
  · simp only [h, if_false] at hl
    exact wrapLoop_line_le hl

theorem splitIntoLines_ascii (t : Str) :
    ∀ l ∈ splitIntoLines t, asciiStr l := by
  intro l hl
  unfold splitIntoLines at hl
  by_cases he : t = []
  · simp [he] at hl
    subst hl
    intro c hc
    simp at hc
  · simp only [he, if_false] at hl
    by_cases hn : flatMapL segLines (splitOnNl (sanitizeAscii t)) = []
    · simp only [hn, if_true] at hl
      simp at hl
      subst hl
      intro c hc
      simp at hc
    · simp only [hn, if_false] at hl
      rcases mem_flatMapL.mp hl with ⟨seg, hseg, hlseg⟩
      have hsegascii : asciiStr seg := fun c hc =>
        sanitizeAscii_ascii t c (splitOnNl_chars hseg hc)
      exact segLines_ascii hsegascii l hlseg

theorem splitIntoLines_le90 (t : Str) :
    ∀ l ∈ splitIntoLines t, l.length ≤ 90 := by
  intro l hl
  unfold splitIntoLines at hl
  by_cases he : t = []
  · simp [he] at hl
    subst hl
    simp
  · simp only [he, if_false] at hl
    by_cases hn : flatMapL segLines (splitOnNl (sanitizeAscii t)) = []
    · simp only [hn, if_true] at hl
      simp at hl
      subst hl
      simp
    · simp only [hn, if_false] at hl
      rcases mem_flatMapL.mp hl with ⟨seg, _, hlseg⟩
      exact segLines_le90 seg l hlseg

theorem splitIntoLines_ne_nil (t : Str) : splitIntoLines t ≠ [] := by
  unfold splitIntoLines
  by_cases he : t = []
  · simp [he]
  · simp only [he, if_false]
    by_cases hn : flatMapL segLines (splitOnNl (sanitizeAscii t)) = []
    · simp [hn]
    · simp [hn]

theorem splitIntoLines_empty : splitIntoLines [] = [[]] := rfl

/-! ## The Document Composer

Source (`SummaryReviewPage.jsx` lines 193-230).  Five objects are pushed
through `addObject` (which appends a newline when the object does not end
with one); the running cursor starts at the header's length and advances by
each object's string length, recording the cross-reference offset *before*
each append; the cross-reference table, trailer and `startxref` pointer
follow.  Offsets and the `startxref` value are measured in string code
units (`utf16Len`); the final buffer is the UTF-8 encoding of the whole
string. -/

def pdfHeader : Str := strL "%PDF-1.4\n"

def obj1 : Str := strL "1 0 obj << /Type /Catalog /Pages 2 0 R >> endobj"

def obj2 : Str := strL "2 0 obj << /Type /Pages /Count 1 /Kids [3 0 R] >> endobj"

def obj3 : Str := strL "3 0 obj << /Type /Page /Parent 2 0 R /MediaBox [0 0 612 792] /Resources << /Font << /F1 4 0 R >> >> /Contents 5 0 R >> endobj"

def obj4 : Str := strL "4 0 obj << /Type /Font /Subtype /Type1 /BaseFont /Helvetica >> endobj"

/-- The content-stream object: its `/Length` is the byte length of the
UTF-8-encoded stream (`streamBytes.length` in the source). -/
def obj5 (stream : Str) : Str :=
  strL "5 0 obj << /Length " ++ natToDec (encodeUtf8 stream).length
    ++ strL " >> stream\n" ++ stream ++ strL "endstream endobj"

/-- `addObject`: append a newline unless the object already ends with one. -/
def addNl (o : Str) : Str :=
  if o.getLast? = some '\n' then o else o ++ ['\n']

def pdfObjects (stream : Str) : List Str :=
  [obj1, obj2, obj3, obj4, obj5 stream].map addNl

/-- The `offsets.push(cursor); cursor += obj.length` loop: cross-reference
offsets as a running sum of string lengths, starting from `c`. -/
def offsetsFrom : Nat → List Str → List Nat
  | _, [] => []
  | c, o :: rest => c :: offsetsFrom (c + utf16Len o) rest

/-- JavaScript `padStart(10, '0')`. -/
def padStart10 (s : Str) : Str := List.replicate (10 - s.length) '0' ++ s

/-- One `n`-entry per in-use object, in ascending id order (the source loop
runs over `offsets[1] .. offsets[objects.length]`). -/
def xrefEntries (offs : List Nat) : Str :=
  flatMapL (fun off => padStart10 (natToDec off) ++ strL " 00000 n \n")
    (offs.drop 1)

structure PdfParts where
  objects : List Str
  offsets : List Nat
  xrefOffset : Nat
  pdf : Str

/-- The composer up to (but excluding) the final UTF-8 encoding: the
normalized objects, the recorded cross-reference offsets (index 0 is the
free-list head), the `startxref` value, and the complete document string. -/
def composePdfParts (stream : Str) : PdfParts :=
  let objs := pdfObjects stream
  let offs := 0 :: offsetsFrom (utf16Len pdfHeader) objs
  let body := pdfHeader ++ objs.flatten
  let xoff := utf16Len body
  let pdf := body
    ++ strL "xref\n0 " ++ natToDec (objs.length + 1) ++ strL "\n"
    ++ strL "0000000000 65535 f \n"
    ++ xrefEntries offs
    ++ strL "trailer\n"
    ++ strL "<< /Size " ++ natToDec (objs.length + 1) ++ strL " /Root 1 0 R >>\n"
    ++ strL "startxref\n" ++ natToDec xoff ++ strL "\n%%EOF"
  ⟨objs, offs, xoff, pdf⟩

/-- `composePdf`: the byte buffer handed to the `Blob` constructor. -/
def composePdf (stream : Str) : List Nat :=
  encodeUtf8 (composePdfParts stream).pdf

/-! ## The fallback exporter (`createFallbackPdfBlob`)

Source (`SummaryReviewPage.jsx` lines 232-251). -/

structure FallbackInput where
  summaryText : Str
  citations : List Str
  focusAspect : Option Str

/-- The first line: `focusAspect ? "Summary - Focus: " + sanitizeAscii(f)
: 'Summary'` (an absent or empty focus label is falsy). -/
def fallbackHeader : Option Str → Str
  | some f => if f = [] then strL "Summary" else strL "Summary - Focus: " ++ sanitizeAscii f
  | none => strL "Summary"

/-- The references block: empty citations are filtered out; if any remain,
a blank line, a heading, and the wrapped numbered entries follow. -/
def citationLines (citations : List Str) : List Str :=
  if citations.filter (fun c => !(c == [])) = [] then []
  else
    [[], strL "References:"]
      ++ flatMapL
        (fun p => wrapParagraphs (natToDec (p.1 + 1) ++ strL ". " ++ p.2))
        (enumFromL 0 (citations.filter (fun c => !(c == []))))

def fallbackLines (inp : FallbackInput) : List Str :=
  fallbackHeader inp.focusAspect :: []
    :: (wrapParagraphs inp.summaryText ++ citationLines inp.citations)

/-- The bytes of the blob built by `createFallbackPdfBlob`. -/
def createFallbackPdfBlob (inp : FallbackInput) : List Nat :=
  composePdf (buildContentStream (fallbackLines inp))

/-- `obj` is serialized in `buf` starting exactly at byte offset `off`. -/
def objAt (buf : List Nat) (off : Nat) (obj : Str) : Prop :=
  ∃ pre suf, buf = pre ++ encodeUtf8 obj ++ suf ∧ pre.length = off

/-- Everything after the five objects in the composed document string. -/
def xrefSection (stream : Str) : Str :=
  strL "xref\n0 " ++ natToDec ((pdfObjects stream).length + 1) ++ strL "\n"
    ++ strL "0000000000 65535 f \n"
    ++ xrefEntries (0 :: offsetsFrom (utf16Len pdfHeader) (pdfObjects stream))
    ++ strL "trailer\n"
    ++ strL "<< /Size " ++ natToDec ((pdfObjects stream).length + 1)
    ++ strL " /Root 1 0 R >>\n"
    ++ strL "startxref\n"
    ++ natToDec (utf16Len (pdfHeader ++ (pdfObjects stream).flatten))
    ++ strL "\n%%EOF"

theorem composePdfParts_pdf (stream : Str) :
    (composePdfParts stream).pdf
      = pdfHeader
        ++ (addNl obj1 ++ (addNl obj2 ++ (addNl obj3 ++ (addNl obj4
          ++ (addNl (obj5 stream) ++ xrefSection stream))))) := by
  simp [composePdfParts, xrefSection, pdfObjects, List.append_assoc]

theorem composePdfParts_offsets (stream : Str) :
    (composePdfParts stream).offsets
      = [0,
          utf16Len pdfHeader,
          utf16Len pdfHeader + utf16Len (addNl obj1),
          utf16Len pdfHeader + utf16Len (addNl obj1)
            + utf16Len (addNl obj2),
          utf16Len pdfHeader + utf16Len (addNl obj1)
            + utf16Len (addNl obj2) + utf16Len (addNl obj3),
          utf16Len pdfHeader + utf16Len (addNl obj1)
            + utf16Len (addNl obj2) + utf16Len (addNl obj3)
            + utf16Len (addNl obj4)] := by
  simp [composePdfParts, pdfObjects, offsetsFrom]

theorem composePdfParts_xrefOffset (stream : Str) :
    (composePdfParts stream).xrefOffset
      = utf16Len (pdfHeader ++ (pdfObjects stream).flatten) := rfl

theorem asciiStr_addNl {o : Str} (h : asciiStr o) : asciiStr (addNl o) := by
  unfold addNl
  by_cases hl : o.getLast? = some '\n'
  · simp [hl, h]
  · simp only [hl, if_false]
    refine asciiStr_append h ?_
    decide

theorem asciiStr_obj5 {stream : Str} (h : asciiStr stream) :
    asciiStr (obj5 stream) := by
  unfold obj5
  refine asciiStr_append (asciiStr_append (asciiStr_append
    (asciiStr_append (by decide) (natToDec_ascii _)) (by decide)) h) ?_
  decide

theorem addNl_obj5 (stream : Str) :
    addNl (obj5 stream) = obj5 stream ++ ['\n'] := by
  unfold addNl
  have h : (obj5 stream).getLast? = some 'j' := by
    unfold obj5
    have hne : strL "endstream endobj" ≠ ([] : Str) := by decide
    rw [List.getLast?_append_of_ne_nil _ hne]
    decide
  rw [h]
  rw [if_neg (by decide)]

theorem asciiStr_xrefEntries (offs : List Nat) :
    asciiStr (xrefEntries offs) := by
  unfold xrefEntries
  intro c hc
  rcases mem_flatMapL.mp hc with ⟨off, _, hm⟩
  rcases List.mem_append.mp hm with hm | hm
  · unfold padStart10 at hm
    rcases List.mem_append.mp hm with hm | hm
    · have : c = '0' := by simpa using List.eq_of_mem_replicate hm
      subst this; decide
    · exact natToDec_ascii off c hm
  · revert hm
    have : asciiStr (strL " 00000 n \n") := by decide
    exact fun hm => this c hm

theorem asciiStr_xrefSection (stream : Str) :
    asciiStr (xrefSection stream) := by
  unfold xrefSection
  exact asciiStr_append (asciiStr_append (asciiStr_append (asciiStr_append
    (asciiStr_append (asciiStr_append (asciiStr_append (asciiStr_append
    (asciiStr_append (asciiStr_append (asciiStr_append
      (by decide) (natToDec_ascii _)) (by decide)) (by decide))
      (asciiStr_xrefEntries _)) (by decide)) (by decide)) (natToDec_ascii _))
      (by decide)) (by decide)) (natToDec_ascii _)) (by decide)

theorem pdfObjects_flatten (stream : Str) :
    (pdfObjects stream).flatten
      = addNl obj1 ++ (addNl obj2 ++ (addNl obj3 ++ (addNl obj4
        ++ addNl (obj5 stream)))) := by
  simp [pdfObjects]

theorem asciiStr_pdfBody {stream : Str} (h : asciiStr stream) :
    asciiStr (pdfHeader ++ (pdfObjects stream).flatten) := by
  rw [pdfObjects_flatten]
  exact asciiStr_append (by decide) (asciiStr_append (asciiStr_addNl (by decide))
    (asciiStr_append (asciiStr_addNl (by decide))
      (asciiStr_append (asciiStr_addNl (by decide))
        (asciiStr_append (asciiStr_addNl (by decide))
          (asciiStr_addNl (asciiStr_obj5 h))))))

theorem asciiStr_composePdfParts {stream : Str} (h : asciiStr stream) :
    asciiStr (composePdfParts stream).pdf := by
  rw [composePdfParts_pdf]
  exact asciiStr_append (by decide) (asciiStr_append (asciiStr_addNl (by decide))
    (asciiStr_append (asciiStr_addNl (by decide))
      (asciiStr_append (asciiStr_addNl (by decide))
        (asciiStr_append (asciiStr_addNl (by decide))
          (asciiStr_append (asciiStr_addNl (asciiStr_obj5 h))
            (asciiStr_xrefSection stream))))))

theorem objAt_intro (x y z : Str) (hx : asciiStr x) :
    objAt (encodeUtf8 (x ++ (y ++ z))) (utf16Len x) y :=
  ⟨encodeUtf8 x, encodeUtf8 z,
    by rw [encodeUtf8_append, encodeUtf8_append, List.append_assoc],
    length_encodeUtf8_ascii hx⟩

theorem composePdf_layout (stream : Str) (hA : asciiStr stream) :
    objAt (composePdf stream)
        ((composePdfParts stream).offsets.getD 1 0) (addNl obj1)
    ∧ objAt (composePdf stream)
        ((composePdfParts stream).offsets.getD 2 0) (addNl obj2)
    ∧ objAt (composePdf stream)
        ((composePdfParts stream).offsets.getD 3 0) (addNl obj3)
    ∧ objAt (composePdf stream)
        ((composePdfParts stream).offsets.getD 4 0) (addNl obj4)
    ∧ objAt (composePdf stream)
        ((composePdfParts stream).offsets.getD 5 0) (addNl (obj5 stream))
    ∧ objAt (composePdf stream)
        ((composePdfParts stream).xrefOffset) (strL "xref")
    ∧ (∃ t, (composePdfParts stream).pdf
        = t ++ strL "startxref\n"
          ++ natToDec ((composePdfParts stream).xrefOffset)
          ++ strL "\n%%EOF") := by
  have hpdf := composePdfParts_pdf stream
  have hoffs := composePdfParts_offsets stream
  refine ⟨?_, ?_, ?_, ?_, ?_, ?_, ?_⟩
  · have hoff : (composePdfParts stream).offsets.getD 1 0
        = utf16Len pdfHeader := by rw [hoffs]; rfl
    rw [hoff, composePdf, hpdf]
    exact objAt_intro _ _ _ (by decide)
  · have hoff : (composePdfParts stream).offsets.getD 2 0
        = utf16Len (pdfHeader ++ addNl obj1) := by
      rw [hoffs, utf16Len_append]; rfl
    have e : (composePdfParts stream).pdf
        = (pdfHeader ++ addNl obj1)
          ++ (addNl obj2 ++ (addNl obj3 ++ (addNl obj4
            ++ (addNl (obj5 stream) ++ xrefSection stream)))) := by
      rw [hpdf]; simp [List.append_assoc]
    rw [hoff, composePdf, e]
    exact objAt_intro _ _ _ (asciiStr_append (by decide)
      (asciiStr_addNl (by decide)))
  · have hoff : (composePdfParts stream).offsets.getD 3 0
        = utf16Len ((pdfHeader ++ addNl obj1) ++ addNl obj2) := by
      rw [hoffs, utf16Len_append, utf16Len_append]; rfl
    have e : (composePdfParts stream).pdf
        = ((pdfHeader ++ addNl obj1) ++ addNl obj2)
          ++ (addNl obj3 ++ (addNl obj4
            ++ (addNl (obj5 stream) ++ xrefSection stream))) := by
      rw [hpdf]; simp [List.append_assoc]
    rw [hoff, composePdf, e]
    exact objAt_intro _ _ _ (asciiStr_append (asciiStr_append (by decide)
      (asciiStr_addNl (by decide))) (asciiStr_addNl (by decide)))
  · have hoff : (composePdfParts stream).offsets.getD 4 0
        = utf16Len (((pdfHeader ++ addNl obj1) ++ addNl obj2)
          ++ addNl obj3) := by
      rw [hoffs, utf16Len_append, utf16Len_append, utf16Len_append]; rfl
    have e : (composePdfParts stream).pdf
        = (((pdfHeader ++ addNl obj1) ++ addNl obj2) ++ addNl obj3)
          ++ (addNl obj4 ++ (addNl (obj5 stream) ++ xrefSection stream)) := by
      rw [hpdf]; simp [List.append_assoc]
    rw [hoff, composePdf, e]
    exact objAt_intro _ _ _ (asciiStr_append (asciiStr_append (asciiStr_append
      (by decide) (asciiStr_addNl (by decide))) (asciiStr_addNl (by decide)))
      (asciiStr_addNl (by decide)))
  · have hoff : (composePdfParts stream).offsets.getD 5 0
        = utf16Len ((((pdfHeader ++ addNl obj1) ++ addNl obj2)
          ++ addNl obj3) ++ addNl obj4) := by
      rw [hoffs, utf16Len_append, utf16Len_append, utf16Len_append,
        utf16Len_append]
      rfl
    have e : (composePdfParts stream).pdf
        = ((((pdfHeader ++ addNl obj1) ++ addNl obj2) ++ addNl obj3)
            ++ addNl obj4)
          ++ (addNl (obj5 stream) ++ xrefSection stream) := by
      rw [hpdf]; simp [List.append_assoc]
    rw [hoff, composePdf, e]
    exact objAt_intro _ _ _ (asciiStr_append (asciiStr_append (asciiStr_append
      (asciiStr_append (by decide) (asciiStr_addNl (by decide)))
      (asciiStr_addNl (by decide))) (asciiStr_addNl (by decide)))
      (asciiStr_addNl (by decide)))
  · have hxo := composePdfParts_xrefOffset stream
    have hsplit : strL "xref\n0 " = strL "xref" ++ strL "\n0 " := by decide
    have e : (composePdfParts stream).pdf
        = (pdfHeader ++ (pdfObjects stream).flatten)
          ++ (strL "xref"
            ++ (strL "\n0 " ++ (natToDec ((pdfObjects stream).length + 1)
              ++ (strL "\n" ++ (strL "0000000000 65535 f \n"
                ++ (xrefEntries (0 :: offsetsFrom (utf16Len pdfHeader)
                      (pdfObjects stream))
                  ++ (strL "trailer\n" ++ (strL "<< /Size "
                    ++ (natToDec ((pdfObjects stream).length + 1)
                      ++ (strL " /Root 1 0 R >>\n" ++ (strL "startxref\n"
                        ++ (natToDec (utf16Len (pdfHeader
                              ++ (pdfObjects stream).flatten))
                          ++ strL "\n%%EOF")))))))))))) := by
      rw [hpdf, pdfObjects_flatten]
      unfold xrefSection
      rw [pdfObjects_flatten, hsplit]
      simp [List.append_assoc]
    rw [hxo, composePdf, e]
    exact objAt_intro _ _ _ (asciiStr_pdfBody hA)
  · exact ⟨pdfHeader ++ (pdfObjects stream).flatten
      ++ strL "xref\n0 " ++ natToDec ((pdfObjects stream).length + 1)
      ++ strL "\n" ++ strL "0000000000 65535 f \n"
      ++ xrefEntries (0 :: offsetsFrom (utf16Len pdfHeader)
          (pdfObjects stream))
      ++ strL "trailer\n" ++ strL "<< /Size "
      ++ natToDec ((pdfObjects stream).length + 1)
      ++ strL " /Root 1 0 R >>\n", rfl⟩

theorem composePdf_length_payload (stream : Str) :
    ∃ n pre suf,
      composePdf stream = pre ++ encodeUtf8 stream ++ suf
      ∧ (∃ p0, pre = p0 ++ encodeUtf8 (strL "/Length " ++ natToDec n
          ++ strL " >> stream\n"))
      ∧ (∃ s0, suf = encodeUtf8 (strL "endstream endobj\n") ++ s0)
      ∧ n = (encodeUtf8 stream).length := by
  refine ⟨(encodeUtf8 stream).length,
    encodeUtf8 (pdfHeader ++ (addNl obj1 ++ (addNl obj2 ++ (addNl obj3
      ++ (addNl obj4 ++ (strL "5 0 obj << /Length "
        ++ (natToDec (encodeUtf8 stream).length ++ strL " >> stream\n"))))))),
    encodeUtf8 (strL "endstream endobj\n" ++ xrefSection stream),
    ?_, ?_, ?_, rfl⟩
  · have hsp : strL "endstream endobj\n"
        = strL "endstream endobj" ++ ['\n'] := by decide
    have hstr : (composePdfParts stream).pdf
        = (pdfHeader ++ (addNl obj1 ++ (addNl obj2 ++ (addNl obj3
            ++ (addNl obj4 ++ (strL "5 0 obj << /Length "
              ++ (natToDec (encodeUtf8 stream).length
                ++ strL " >> stream\n")))))))
          ++ (stream ++ (strL "endstream endobj\n" ++ xrefSection stream)) := by
      rw [composePdfParts_pdf, addNl_obj5]
      unfold obj5
      rw [hsp]
      simp [List.append_assoc]
    rw [composePdf, hstr, encodeUtf8_append, encodeUtf8_append]
    simp [List.append_assoc, encodeUtf8_append]
  · have hsp : strL "5 0 obj << /Length "
        = strL "5 0 obj << " ++ strL "/Length " := by decide
    have hstr2 : pdfHeader ++ (addNl obj1 ++ (addNl obj2 ++ (addNl obj3
          ++ (addNl obj4 ++ (strL "5 0 obj << /Length "
            ++ (natToDec (encodeUtf8 stream).length ++ strL " >> stream\n"))))))
        = (pdfHeader ++ (addNl obj1 ++ (addNl obj2 ++ (addNl obj3
            ++ (addNl obj4 ++ strL "5 0 obj << ")))))
          ++ (strL "/Length " ++ natToDec (encodeUtf8 stream).length
            ++ strL " >> stream\n") := by
      rw [hsp]
      simp [List.append_assoc]
    exact ⟨encodeUtf8 (pdfHeader ++ (addNl obj1 ++ (addNl obj2 ++ (addNl obj3
      ++ (addNl obj4 ++ strL "5 0 obj << "))))),
      by rw [hstr2, encodeUtf8_append]⟩
  · exact ⟨encodeUtf8 (xrefSection stream), by rw [← encodeUtf8_append]⟩

/-! ## ASCII purity of the whole pipeline -/

theorem fallbackHeader_ascii (focusAspect : Option Str) :
    asciiStr (fallbackHeader focusAspect) := by
  unfold fallbackHeader
  rcases focusAspect with _ | f
  · decide
  · by_cases hf : f = []
    · simp only [hf, if_true]; decide
    · simp only [hf, if_false]
      exact asciiStr_append (by decide) (sanitizeAscii_ascii f)

theorem citationLines_ascii (citations : List Str) :
    ∀ l ∈ citationLines citations, asciiStr l := by
  intro l hl
  unfold citationLines at hl
  by_cases hc : citations.filter (fun c => !(c == [])) = []
  · rw [if_pos hc] at hl
    simp at hl
  · rw [if_neg hc] at hl
    rcases List.mem_append.mp hl with hm | hm
    · rcases List.mem_cons.mp hm with rfl | hm
      · intro c hcm; simp at hcm
      · rcases List.mem_cons.mp hm with rfl | hm
        · decide
        · simp at hm
    · rcases mem_flatMapL.mp hm with ⟨p, _, hlp⟩
      exact splitIntoLines_ascii _ l hlp

theorem fallbackLines_ascii (inp : FallbackInput) :
    ∀ l ∈ fallbackLines inp, asciiStr l := by
  intro l hl
  unfold fallbackLines at hl
  rcases List.mem_cons.mp hl with rfl | hl
  · exact fallbackHeader_ascii _
  · rcases List.mem_cons.mp hl with rfl | hl
    · intro c hcm; simp at hcm
    · rcases List.mem_append.mp hl with hm | hm
      · exact splitIntoLines_ascii _ l hm
      · exact citationLines_ascii _ l hm

theorem pipelineStream_ascii (inp : FallbackInput) :
    asciiStr (buildContentStream (fallbackLines inp)) :=
  buildContentStream_ascii (fallbackLines_ascii inp)

/-! ## Characterizing the wrapper's cut position (for the break-point claim) -/

theorem filter_range_getLast_some {n : Nat} {p : Nat → Bool} {j : Nat}
    (h : ((List.range n).filter p).getLast? = some j) :
    p j = true ∧ j < n ∧ ∀ k, j < k → k < n → p k = false := by
  induction n with
  | zero => simp at h
  | succ m ih =>
    rw [List.range_succ, List.filter_append] at h
    by_cases hp : p m
    · rw [show List.filter p [m] = [m] from by simp [hp]] at h
      rw [List.getLast?_append_of_ne_nil _ (by simp)] at h
      simp at h
      subst h
      exact ⟨hp, by omega, fun k hk1 hk2 => absurd hk2 (by omega)⟩
    · rw [show List.filter p [m] = ([] : List Nat) from by simp [hp],
        List.append_nil] at h
      obtain ⟨h1, h2, h3⟩ := ih h
      refine ⟨h1, by omega, ?_⟩
      intro k hk1 hk2
      by_cases hkm : k = m
      · subst hkm; simpa using hp
      · exact h3 k hk1 (by omega)

theorem filter_range_getLast_none {n : Nat} {p : Nat → Bool}
    (h : ((List.range n).filter p).getLast? = none) :
    ∀ k, k < n → p k = false := by
  intro k hk
  by_contra hpk
  have hmem : k ∈ (List.range n).filter p :=
    List.mem_filter.mpr ⟨List.mem_range.mpr hk, by simpa using hpk⟩
  have hne : (List.range n).filter p ≠ [] := fun hnil => by
    rw [hnil] at hmem
    simp at hmem
  rw [List.getLast?_eq_none_iff] at h
  exact hne h

/-! ## The null-argument behaviour of the Sanitizer

`sanitizeAscii` has the signature `(value = '') => value.replace(...)`: the
default kicks in only for a missing (undefined) argument.  A `null`
argument reaches `null.replace(...)`, which throws a `TypeError`.  The
Except value models raising. -/

inductive JsStrArg where
  | undef : JsStrArg
  | nullArg : JsStrArg
  | str : Str → JsStrArg

def sanitizeAsciiJs : JsStrArg → Except String Str
  | .undef => .ok (sanitizeAscii (strL ""))
  | .nullArg =>
    .error "TypeError: Cannot read properties of null (reading replace)"
  | .str s => .ok (sanitizeAscii s)

/-! ## The Artifact Packager's object-URL lifecycle

A transition system abstracting the handle discipline of the source:

* `remoteDownload` — `downloadPdfFromUrl` (lines 153-176): creates a local
  `blobUrl` and revokes it in a `finally` block, so the revocation happens
  on the success path and on every error path of the anchor-click body
  (the Boolean records whether that body threw).
* `fallbackEarlyThrow` — the fallback branch of `handleDownloadClick`
  (lines 625-645) when `createFallbackPdfBlob` throws before any handle is
  created: state unchanged.
* `fallbackCreateThrow` — the previous handle is revoked but
  `URL.createObjectURL` itself fails: no new handle exists.
* `fallbackRun` — the normal fallback path: revoke the previously stored
  handle (if any), create a fresh one, store it in
  `fallbackObjectUrlRef.current` (the store happens before the DOM clicks,
  so a late throw leaves the same state).
* `teardown` — the unmount cleanup effect (lines 720-728): revoke and
  clear any stored handle. -/

structure UrlState where
  live : List Nat
  ref : Option Nat
  next : Nat

inductive ExportOp where
  | remoteDownload : Bool → ExportOp
  | fallbackEarlyThrow : ExportOp
  | fallbackCreateThrow : ExportOp
  | fallbackRun : ExportOp
  | teardown : ExportOp

def initialUrlState : UrlState := ⟨[], none, 0⟩

/-- `URL.revokeObjectURL`. -/
def revokeUrl (s : UrlState) (h : Nat) : UrlState :=
  { s with live := s.live.erase h }

/-- `URL.createObjectURL`: a fresh live handle. -/
def createUrl (s : UrlState) : UrlState × Nat :=
  ({ s with live := s.next :: s.live, next := s.next + 1 }, s.next)

def stepUrl (s : UrlState) : ExportOp → UrlState
  | .remoteDownload _ =>
    let p := createUrl s
    revokeUrl p.1 p.2
  | .fallbackEarlyThrow => s
  | .fallbackCreateThrow =>
    match s.ref with
    | some h => revokeUrl s h
    | none => s
  | .fallbackRun =>
    let s1 := match s.ref with
      | some h => revokeUrl s h
      | none => s
    let p := createUrl s1
    { p.1 with ref := some p.2 }
  | .teardown =>
    match s.ref with
    | some h => { revokeUrl s h with ref := none }
    | none => s

def runUrl (ops : List ExportOp) : UrlState :=
  ops.foldl stepUrl initialUrlState

/-- The lifecycle invariant: every live handle is the stored one (hence at
most one handle is ever live between operations). -/
def urlInv (s : UrlState) : Prop :=
  s.live.length ≤ 1 ∧ ∀ h ∈ s.live, s.ref = some h

theorem urlInv_initial : urlInv initialUrlState := by
  constructor
  · simp [initialUrlState]
  · intro h hh; simp [initialUrlState] at hh

theorem live_of_urlInv {s : UrlState} (hs : urlInv s) :
    s.live = [] ∨ ∃ h, s.ref = some h ∧ s.live = [h] := by
  rcases hs with ⟨hlen, href⟩
  match hl : s.live with
  | [] => exact Or.inl rfl
  | [h] =>
    right
    exact ⟨h, href h (by rw [hl]; exact List.mem_cons_self ..), rfl⟩
  | a :: b :: t => rw [hl] at hlen; simp at hlen

theorem stepUrl_remote_balanced (s : UrlState) (b : Bool) :
    (stepUrl s (.remoteDownload b)).live = s.live := by
  show (revokeUrl (createUrl s).1 (createUrl s).2).live = s.live
  simp [revokeUrl, createUrl]

theorem urlInv_step {s : UrlState} (hs : urlInv s) (op : ExportOp) :
    urlInv (stepUrl s op) := by
  rcases live_of_urlInv hs with hl | ⟨h, href, hl⟩
  · cases op with
    | remoteDownload b =>
      constructor
      · rw [stepUrl_remote_balanced, hl]; simp
      · intro x hx
        rw [stepUrl_remote_balanced, hl] at hx
        simp at hx
    | fallbackEarlyThrow => exact hs
    | fallbackCreateThrow =>
      show urlInv (match s.ref with
        | some h => revokeUrl s h
        | none => s)
      rcases hr : s.ref with _ | h
      · simpa using hs
      · constructor
        · simp [revokeUrl, hl]
        · intro x hx
          simp [revokeUrl, hl] at hx
    | fallbackRun =>
      constructor
      · show ({ (createUrl (match s.ref with
            | some h => revokeUrl s h
            | none => s)).1 with
              ref := some (createUrl (match s.ref with
            | some h => revokeUrl s h
            | none => s)).2 }).live.length ≤ 1
        rcases hr : s.ref with _ | h
        · simp [createUrl, hl]
        · simp [createUrl, revokeUrl, hl]
      · intro x hx
        revert hx
        show x ∈ ({ (createUrl (match s.ref with
            | some h => revokeUrl s h
            | none => s)).1 with
              ref := some (createUrl (match s.ref with
            | some h => revokeUrl s h
            | none => s)).2 }).live → _
        rcases hr : s.ref with _ | h
        · simp [createUrl, hl]
          intro hx
          subst hx
          simp [stepUrl, hr, createUrl, revokeUrl]
        · simp [createUrl, revokeUrl, hl]
          intro hx
          subst hx
          simp [stepUrl, hr, createUrl, revokeUrl]
    | teardown =>
      show urlInv (match s.ref with
        | some h => { revokeUrl s h with ref := none }
        | none => s)
      rcases hr : s.ref with _ | h
      · exact hs
      · constructor
        · simp [revokeUrl, hl]
        · intro x hx
          simp [revokeUrl, hl] at hx
  · cases op with
    | remoteDownload b =>
      constructor
      · rw [stepUrl_remote_balanced, hl]; simp
      · intro x hx
        rw [stepUrl_remote_balanced, hl] at hx
        simp at hx
        subst hx
        exact href
    | fallbackEarlyThrow => exact hs
    | fallbackCreateThrow =>
      show urlInv (match s.ref with
        | some h0 => revokeUrl s h0
        | none => s)
      rw [href]
      constructor
      · simp [revokeUrl, hl]
      · intro x hx
        simp [revokeUrl, hl] at hx
    | fallbackRun =>
      constructor
      · show ({ (createUrl (match s.ref with
            | some h0 => revokeUrl s h0
            | none => s)).1 with
              ref := some (createUrl (match s.ref with
            | some h0 => revokeUrl s h0
            | none => s)).2 }).live.length ≤ 1
        rw [href]
        simp [createUrl, revokeUrl, hl]
      · intro x hx
        revert hx
        show x ∈ ({ (createUrl (match s.ref with
            | some h0 => revokeUrl s h0
            | none => s)).1 with
              ref := some (createUrl (match s.ref with
            | some h0 => revokeUrl s h0
            | none => s)).2 }).live → _
        rw [href]
        simp [createUrl, revokeUrl, hl]
        intro hx
        subst hx
        simp [stepUrl, href, createUrl, revokeUrl]
    | teardown =>
      show urlInv (match s.ref with
        | some h0 => { revokeUrl s h0 with ref := none }
        | none => s)
      rw [href]
      constructor
      · simp [revokeUrl, hl]
      · intro x hx
        simp [revokeUrl, hl] at hx

theorem urlInv_run_from {s : UrlState} (hs : urlInv s) (ops : List ExportOp) :
    urlInv (ops.foldl stepUrl s) := by
  induction ops generalizing s with
  | nil => exact hs
  | cons op rest ih =>
    rw [List.foldl_cons]
    exact ih (urlInv_step hs op)

theorem urlInv_run (ops : List ExportOp) : urlInv (runUrl ops) :=
  urlInv_run_from urlInv_initial ops

theorem teardown_clears {s : UrlState} (hs : urlInv s) :
    (stepUrl s .teardown).live = [] := by
  show (match s.ref with
    | some h0 => { revokeUrl s h0 with ref := none }
    | none => s).live = []
  rcases live_of_urlInv hs with hl | ⟨h, href, hl⟩
  · rcases hr : s.ref with _ | h0
    · exact hl
    · simp [revokeUrl, hl]
  · rw [href]
    simp [revokeUrl, hl]

/-! ## The claims -/

/-- An astral code point (here U+1F600) occupies two UTF-16 code units,
both surrogates, so the sanitizer's per-code-unit regex emits two `?`. -/
def astralSmile : Char := Char.ofNat 0x1F600

/-- The break position described by the specification: the last space at or
before the width boundary when one exists, otherwise the boundary. -/
def claimedBreakIndex (s : Str) : Nat :=
  match lastSpaceLE s 90 with
  | some j => j
  | none => 90

/-- A line whose only space sits at index 0 and which exceeds the width. -/
def cexLine : Str := ' ' :: List.replicate 95 'a'

/-- A line with no space at all, exceeding the width. -/
def unbreakableLine : Str := List.replicate 91 'a'


/-- C3 counterexample: the claim promises one-for-one replacement of every
illegal code point (so output length = input length); on the single astral
code point U+1F600 the sanitizer produces two `?` characters, so the code
point counts differ. -/
theorem sanitizeAscii_one_for_one_counterexample :
    (sanitizeAscii [astralSmile]).length ≠ [astralSmile].length
      ∧ sanitizeAscii [astralSmile] = ['?', '?'] := by decide

/-- C3 (amended): the sanitizer's output contains only tab, LF, CR and
printable ASCII 0x20-0x7E; the replacement is one-for-one per UTF-16 code
unit (an astral code point, two units, becomes two `?`), so the output
length equals the input length in UTF-16 code units; on strings of only
legal characters it is the identity. -/
theorem sanitizeAscii_spec (s : Str) :
    (∀ c ∈ sanitizeAscii s, legalPdfChar c = true)
      ∧ utf16Len (sanitizeAscii s) = utf16Len s
      ∧ ((∀ c ∈ s, legalPdfChar c = true) → sanitizeAscii s = s) :=
  ⟨sanitizeAscii_legal s, sanitizeAscii_utf16Len s, fun h => sanitizeAscii_id h⟩

theorem sanitizeAscii_spec_witness :
    legalPdfChar '?' = true
      ∧ (∀ c ∈ strL "Result A.", legalPdfChar c = true)
      ∧ sanitizeAscii (strL "Result A.") = strL "Result A." :=
  ⟨(sanitizeAscii_spec [astralSmile]).1 '?' (by decide),
    by decide,
    (sanitizeAscii_spec (strL "Result A.")).2.2 (by decide)⟩

/-- C4: for every input the wrapper (width 90) emits no line longer than 90
and never zero lines; the empty input yields exactly one empty line. -/
theorem splitIntoLines_spec (text : Str) :
    (∀ l ∈ splitIntoLines text, l.length ≤ 90)
      ∧ splitIntoLines text ≠ []
      ∧ (text = [] → splitIntoLines text = [[]]) :=
  ⟨splitIntoLines_le90 text, splitIntoLines_ne_nil text,
    fun h => by rw [h]; exact splitIntoLines_empty⟩

theorem splitIntoLines_spec_witness :
    (([] : Str) ∈ splitIntoLines [] ∧ ([] : Str).length ≤ 90)
      ∧ ([] : Str) = [] ∧ splitIntoLines [] = [[]] :=
  ⟨⟨by decide, (splitIntoLines_spec []).1 [] (by decide)⟩,
    rfl, (splitIntoLines_spec []).2.2 rfl⟩

/-- C5 counterexample: on a 96-character line whose only space is at index
0, the last space at or before the boundary exists (index 0), yet the loop
does not break there — `splitIndex <= 0` forces the cut to the width
boundary instead, so the first emitted line is the 90-character prefix and
not the empty prefix the claim prescribes. -/
theorem wrap_break_counterexample :
    90 < cexLine.length
      ∧ claimedBreakIndex cexLine = 0
      ∧ (wrapLoop cexLine).head?
          ≠ some (trimEnd (cexLine.take (claimedBreakIndex cexLine))) := by
  decide

/-- C5 (amended): a line longer than the width breaks at the last space at
or before the boundary provided that space is at a positive index; if every
space at or before the boundary is at index 0 (or there is none), the line
is force-broken exactly at the width boundary; leading whitespace is
stripped from the continuation in both cases. -/
theorem wrap_break_spec (s : Str) (h : 90 < s.length) :
    (∃ j, 1 ≤ j ∧ j ≤ 90 ∧ s.getD j 'x' = ' '
        ∧ (∀ k, k ≤ 90 → j < k → s.getD k 'x' ≠ ' ')
        ∧ wrapLoop s = trimEnd (s.take j)
            :: wrapLoop ((s.drop j).dropWhile isJsWs))
      ∨ ((∀ k, k ≤ 90 → 1 ≤ k → s.getD k 'x' ≠ ' ')
        ∧ wrapLoop s = trimEnd (s.take 90)
            :: wrapLoop ((s.drop 90).dropWhile isJsWs)) := by
  have heq := wrapLoop_eq_gt h
  rcases hls : lastSpaceLE s 90 with _ | j
  · have hsi : splitIdx s = 90 := by unfold splitIdx; rw [hls]
    rw [hsi] at heq
    right
    refine ⟨?_, heq⟩
    unfold lastSpaceLE at hls
    have hall := filter_range_getLast_none hls
    intro k hk90 _ hsp
    have hf := hall k (by omega)
    rw [hsp] at hf
    simp at hf
  · cases j with
    | zero =>
      have hsi : splitIdx s = 90 := by unfold splitIdx; rw [hls]
      rw [hsi] at heq
      right
      refine ⟨?_, heq⟩
      unfold lastSpaceLE at hls
      obtain ⟨_, _, hmax⟩ := filter_range_getLast_some hls
      intro k hk90 hk1 hsp
      have hf := hmax k (by omega) (by omega)
      rw [hsp] at hf
      simp at hf
    | succ j0 =>
      have hsi : splitIdx s = j0 + 1 := by unfold splitIdx; rw [hls]
      rw [hsi] at heq
      left
      unfold lastSpaceLE at hls
      obtain ⟨hp, hlt, hmax⟩ := filter_range_getLast_some hls
      refine ⟨j0 + 1, by omega, by omega, by simpa using hp, ?_, heq⟩
      intro k hk90 hkgt hsp
      have hf := hmax k (by omega) (by omega)
      rw [hsp] at hf
      simp at hf

theorem wrap_break_spec_witness :
    90 < unbreakableLine.length
      ∧ ((∃ j, 1 ≤ j ∧ j ≤ 90 ∧ unbreakableLine.getD j 'x' = ' '
            ∧ (∀ k, k ≤ 90 → j < k → unbreakableLine.getD k 'x' ≠ ' ')
            ∧ wrapLoop unbreakableLine
                = trimEnd (unbreakableLine.take j)
                  :: wrapLoop ((unbreakableLine.drop j).dropWhile isJsWs))
          ∨ ((∀ k, k ≤ 90 → 1 ≤ k → unbreakableLine.getD k 'x' ≠ ' ')
            ∧ wrapLoop unbreakableLine
                = trimEnd (unbreakableLine.take 90)
                  :: wrapLoop ((unbreakableLine.drop 90).dropWhile isJsWs))) :=
  ⟨by decide, wrap_break_spec unbreakableLine (by decide)⟩

/-- C6: the content stream is delimited by `BT`/font-selector and `ET`
markers; there is one positioning-plus-show-text command per line whose
string argument is the escaped line; the vertical coordinate follows
`ySpec` (starts at 760, decreases by 14, resets to 760 when it would fall
below 60); and on newline-free lines the escaping is exactly the
backslash-escaping of backslash, `(` and `)`. -/
theorem buildContentStream_spec (lines : List Str) :
    (∃ body, buildContentStream lines
        = strL "BT\n/F1 12 Tf\n" ++ body ++ strL "ET\n")
      ∧ buildCmds 760 lines
        = (enumFromL 0 lines).map (fun p => strL "1 0 0 1 50 "
            ++ natToDec (ySpec p.1) ++ strL " Tm ("
            ++ escapePdfText p.2 ++ strL ") Tj")
      ∧ ySpec 0 = 760
      ∧ (∀ i, ySpec (i + 1)
          = if ySpec i - 14 < 60 then 760 else ySpec i - 14)
      ∧ (∀ l : Str, '\n' ∉ l → escapePdfText l = flatMapL escChar l) := by
  refine ⟨buildContentStream_shape lines, ?_, rfl, fun i => rfl,
    fun l hnl => escapePdfText_no_lf hnl⟩
  exact buildCmds_enum lines 0

theorem buildContentStream_spec_witness :
    ('\n' ∉ strL "a(b)\\")
      ∧ escapePdfText (strL "a(b)\\") = flatMapL escChar (strL "a(b)\\") :=
  ⟨by decide, (buildContentStream_spec []).2.2.2.2 (strL "a(b)\\") (by decide)⟩

/-- C1: for every export input triple, in the byte buffer produced by
`composePdf` applied to the built content stream, the cross-reference
offset recorded for each of the five objects is the exact byte position at
which that object's serialization begins, the cross-reference section
itself begins at byte `xrefOffset`, and the `startxref` line records
exactly that offset. -/
theorem composePdf_offsets_exact (inp : FallbackInput) :
    objAt (composePdf (buildContentStream (fallbackLines inp)))
        ((composePdfParts (buildContentStream (fallbackLines inp))).offsets.getD 1 0)
        (addNl obj1)
      ∧ objAt (composePdf (buildContentStream (fallbackLines inp)))
          ((composePdfParts (buildContentStream (fallbackLines inp))).offsets.getD 2 0)
          (addNl obj2)
      ∧ objAt (composePdf (buildContentStream (fallbackLines inp)))
          ((composePdfParts (buildContentStream (fallbackLines inp))).offsets.getD 3 0)
          (addNl obj3)
      ∧ objAt (composePdf (buildContentStream (fallbackLines inp)))
          ((composePdfParts (buildContentStream (fallbackLines inp))).offsets.getD 4 0)
          (addNl obj4)
      ∧ objAt (composePdf (buildContentStream (fallbackLines inp)))
          ((composePdfParts (buildContentStream (fallbackLines inp))).offsets.getD 5 0)
          (addNl (obj5 (buildContentStream (fallbackLines inp))))
      ∧ objAt (composePdf (buildContentStream (fallbackLines inp)))
          ((composePdfParts (buildContentStream (fallbackLines inp))).xrefOffset)
          (strL "xref")
      ∧ (∃ t, (composePdfParts (buildContentStream (fallbackLines inp))).pdf
          = t ++ strL "startxref\n"
            ++ natToDec ((composePdfParts
                (buildContentStream (fallbackLines inp))).xrefOffset)
            ++ strL "\n%%EOF") :=
  composePdf_layout _ (pipelineStream_ascii inp)

/-- C2: for every content-stream string, the written `/Length` value `n`
is exactly the byte count of the payload lying between the `stream` marker
(after its newline) and the `endstream` marker in the final buffer: the
buffer splits as `pre ++ encodeUtf8 stream ++ suf` where `pre` ends with
`/Length n >> stream\n` and `suf` starts with `endstream endobj`, and
`n = (encodeUtf8 stream).length`. -/
theorem composePdf_streamLength_exact (stream : Str) :
    ∃ n pre suf,
      composePdf stream = pre ++ encodeUtf8 stream ++ suf
      ∧ (∃ p0, pre = p0 ++ encodeUtf8 (strL "/Length " ++ natToDec n
          ++ strL " >> stream\n"))
      ∧ (∃ s0, suf = encodeUtf8 (strL "endstream endobj\n") ++ s0)
      ∧ n = (encodeUtf8 stream).length :=
  composePdf_length_payload stream

/-- A sample export triple. -/
def sampleInput : FallbackInput :=
  ⟨strL "Result A. Result B.",
    [strL "Paper One", strL "Paper Two"],
    some (strL "methods")⟩

/-- C8: the fallback exporter is a deterministic pure function of the
`(summaryText, citations, focusAspect)` triple: equal inputs produce
byte-identical buffers across two runs. -/
theorem createFallbackPdfBlob_deterministic (a b : FallbackInput)
    (h : a = b) : createFallbackPdfBlob a = createFallbackPdfBlob b := by
  rw [h]

theorem createFallbackPdfBlob_deterministic_witness :
    sampleInput = sampleInput
      ∧ createFallbackPdfBlob sampleInput = createFallbackPdfBlob sampleInput :=
  ⟨rfl, createFallbackPdfBlob_deterministic sampleInput sampleInput rfl⟩

/-- C7 counterexample: a `null` argument is not caught by the `value = ''`
default (which applies only to `undefined`), so `null.replace` throws a
TypeError instead of yielding the empty string. -/
theorem sanitizeAsciiJs_null_counterexample :
    sanitizeAsciiJs JsStrArg.nullArg
      = Except.error
          "TypeError: Cannot read properties of null (reading replace)" := rfl

/-- C7 (amended): the sanitizer raises no exception on any string or
missing (undefined) argument, and an empty or missing argument yields the
empty string; a `null` argument, however, throws. -/
theorem sanitizeAsciiJs_total_on_strings (s : Str) :
    (∃ r, sanitizeAsciiJs (JsStrArg.str s) = Except.ok r)
      ∧ sanitizeAsciiJs JsStrArg.undef = Except.ok []
      ∧ sanitizeAsciiJs (JsStrArg.str []) = Except.ok [] :=
  ⟨⟨sanitizeAscii s, rfl⟩, rfl, rfl⟩

/-- C9: after any sequence of export operations, at most one object-URL
handle is live and it is exactly the stored one; a teardown releases
everything; and a remote-download attempt leaves the live set unchanged
(its own handle is revoked in the `finally` on success and failure
alike). -/
theorem packager_handle_discipline (ops : List ExportOp) :
    (runUrl ops).live.length ≤ 1
      ∧ (∀ h ∈ (runUrl ops).live, (runUrl ops).ref = some h)
      ∧ (stepUrl (runUrl ops) ExportOp.teardown).live = []
      ∧ (∀ b, (stepUrl (runUrl ops) (ExportOp.remoteDownload b)).live
          = (runUrl ops).live) := by
  have hinv := urlInv_run ops
  exact ⟨hinv.1, hinv.2, teardown_clears hinv,
    fun b => stepUrl_remote_balanced _ b⟩

/-- C10: every byte of the fallback exporter's buffer is at most 0x7E; the
buffer is the code-unit image of the document string, so string indices
coincide with byte offsets (in particular the buffer length equals the
string length in UTF-16 units). -/
theorem createFallbackPdfBlob_ascii (inp : FallbackInput) :
    (∀ b ∈ createFallbackPdfBlob inp, b ≤ 0x7E)
      ∧ createFallbackPdfBlob inp
        = (composePdfParts
            (buildContentStream (fallbackLines inp))).pdf.map Char.toNat
      ∧ (createFallbackPdfBlob inp).length
        = utf16Len (composePdfParts
            (buildContentStream (fallbackLines inp))).pdf := by
  have hA := asciiStr_composePdfParts (pipelineStream_ascii inp)
  refine ⟨?_, encodeUtf8_ascii hA, length_encodeUtf8_ascii hA⟩
  intro b hb
  rw [show createFallbackPdfBlob inp
      = encodeUtf8 (composePdfParts
          (buildContentStream (fallbackLines inp))).pdf from rfl,
    encodeUtf8_ascii hA] at hb
  rcases List.mem_map.mp hb with ⟨c, hc, rfl⟩
  exact hA c hc

theorem packager_handle_discipline_witness :
    0 ∈ (runUrl [ExportOp.fallbackRun]).live
      ∧ (runUrl [ExportOp.fallbackRun]).ref = some 0 :=
  ⟨by decide,
    (packager_handle_discipline [ExportOp.fallbackRun]).2.1 0 (by decide)⟩

theorem createFallbackPdfBlob_ascii_witness :
    37 ∈ createFallbackPdfBlob sampleInput ∧ 37 ≤ 0x7E :=
  ⟨by decide,
    (createFallbackPdfBlob_ascii sampleInput).1 37 (by decide)⟩
